import Mathlib

/-!
# ChainForge ledger engine: a shallow embedding

Definitions translated from `blockchain/models.py`, `blockchain/blockchain.py`
and `blockchain/views.py`. The SHA-256 hex digest (`hashlib.sha256(...).hexdigest()`)
and `json.dumps` are external library functions; they enter the model as the
abstract fields of `HashCtx`. Timestamps are rational numbers of seconds
(`datetime` differences via `total_seconds()`), amounts are rationals
(`Decimal`). The unbounded proof-of-work loop of `Block.mine_block` is
embedded with an explicit fuel parameter: `none` means the loop has not
terminated within the given number of iterations.
-/

/-- Python string slicing `s[:n]`: the first `n` characters. -/
def strTake (s : String) (n : Nat) : String := String.mk (s.data.take n)

/-- The proof-of-work target `'0' * difficulty`. -/
def zeros (d : Nat) : String := String.mk (List.replicate d '0')

/-- The dictionary produced by `Transaction.to_dict` (sender, receiver,
amount, timestamp); stringification of the numbers is folded into the
abstract `json.dumps`. -/
structure TxDict where
  sender : String
  receiver : String
  amount : ℚ
  timestamp : ℚ
deriving DecidableEq

/-- A block's `data` JSON field: the genesis marker payload
`{'message': 'Genesis Block - ChainForge Initialized'}` or the
`{'transactions': [...]}` payload built by `mine_pending_transactions`. -/
inductive BlockData where
  | genesis
  | txList (l : List TxDict)
deriving DecidableEq

instance : Inhabited BlockData := ⟨.genesis⟩

/-- The `Block` model: index, timestamp, data, previous_hash, nonce, hash. -/
structure Block where
  index : Int
  timestamp : ℚ
  data : BlockData
  previous_hash : String
  nonce : Int
  hash : String
deriving DecidableEq, Inhabited

/-- The `Transaction` model: the `block` foreign key is represented by the
owning block's index. -/
structure Tx where
  sender : String
  receiver : String
  amount : ℚ
  timestamp : ℚ
  block : Option Int
  pending : Bool
deriving DecidableEq, Inhabited

/-- `Transaction.to_dict`. -/
def Tx.to_dict (t : Tx) : TxDict :=
  { sender := t.sender, receiver := t.receiver, amount := t.amount,
    timestamp := t.timestamp }

/-- The two external serialization/hashing functions: `hashlib.sha256(...).hexdigest()`
on the encoded content string, and `json.dumps` on the block's data field. -/
structure HashCtx where
  sha256 : String → String
  dumps : BlockData → String

/-- The f-string content of `Block.calculate_hash`, as a function of the
five hashed fields. -/
def blockContent (ctx : HashCtx) (index : Int) (timestamp : ℚ) (data : BlockData)
    (previous_hash : String) (nonce : Int) : String :=
  toString index ++ toString timestamp ++ ctx.dumps data ++ previous_hash ++ toString nonce

/-- `Block.calculate_hash`: SHA-256 over the concatenated block content.
The `hash` field itself is not part of the digested content. -/
def calculate_hash (ctx : HashCtx) (b : Block) : String :=
  ctx.sha256 (blockContent ctx b.index b.timestamp b.data b.previous_hash b.nonce)

/-- The digest the block would have with its nonce replaced by `n` and all
other fields kept. -/
def digestAt (ctx : HashCtx) (b : Block) (n : Int) : String :=
  ctx.sha256 (blockContent ctx b.index b.timestamp b.data b.previous_hash n)

/-- One iteration of the mining loop: `self.nonce += 1; self.hash = self.calculate_hash()`. -/
def mineStep (ctx : HashCtx) (b : Block) : Block :=
  let b1 : Block := { b with nonce := b.nonce + 1 }
  { b1 with hash := calculate_hash ctx b1 }

/-- `Block.mine_block`: `while self.hash[:difficulty] != target: self.nonce += 1;
self.hash = self.calculate_hash()`. The loop is fuel-indexed: `some` is the
mined block on termination, `none` means the fuel bound was reached first. -/
def mine_block (ctx : HashCtx) (difficulty : Nat) : Nat → Block → Option Block
  | 0, b =>
    if strTake b.hash difficulty = zeros difficulty then some b else none
  | Nat.succ f, b =>
    if strTake b.hash difficulty = zeros difficulty then some b
    else mine_block ctx difficulty f (mineStep ctx b)

/-- The process-wide difficulty state of the `Blockchain` class:
`DIFFICULTY`, `TARGET_BLOCK_TIME`, `ADJUSTMENT_INTERVAL`. -/
structure DiffState where
  difficulty : Int
  target_block_time : Int
  adjustment_interval : Int
deriving DecidableEq, Inhabited

/-- `Blockchain.set_difficulty`: rejects values outside `[1, 10]`, otherwise
replaces `DIFFICULTY` immediately. The `Bool` is the success flag of the
returned pair. -/
def set_difficulty (new : Int) (s : DiffState) : Bool × DiffState :=
  if new < 1 ∨ new > 10 then (false, s)
  else (true, { s with difficulty := new })

/-- The outcomes of `Blockchain.adjust_difficulty`, one per return site:
the first four tag the `False, <message>` early returns, the last two the
`True` returns that change the difficulty. -/
inductive Retarget where
  | notEnough
  | notAtBoundary
  | notEnoughWindow
  | invalidTime
  | unchanged
  | increased
  | decreased
deriving DecidableEq

/-- Whether the retarget outcome is one of the `adjusted = True` returns. -/
def Retarget.adjusted : Retarget → Bool
  | .increased => true
  | .decreased => true
  | _ => false

/-- `Block.objects.order_by('-index')[:k]` followed by `list(reversed(...))`:
the most recent `k` blocks in ascending index order, for a chain already
sorted ascending by index. -/
def lastWindow (k : Int) (chain : List Block) : List Block :=
  (chain.reverse.take k.toNat).reverse

/-- `(blocks[-1].timestamp - blocks[0].timestamp).total_seconds()` over the
retarget window. -/
def windowTimeTaken (k : Int) (chain : List Block) : ℚ :=
  ((lastWindow k chain).getLast?.getD default).timestamp
    - ((lastWindow k chain).head?.getD default).timestamp

/-- `TARGET_BLOCK_TIME * (ADJUSTMENT_INTERVAL - 1)`. -/
def expectedTime (s : DiffState) : ℚ :=
  ((s.target_block_time * (s.adjustment_interval - 1) : Int) : ℚ)

/-- The adjustment ratio `time_taken / expected_time`. -/
def retargetRatio (chain : List Block) (s : DiffState) : ℚ :=
  windowTimeTaken s.adjustment_interval chain / expectedTime s

/-- The body of `Blockchain.adjust_difficulty` once the latest block is
known: the guard cascade and the ratio-driven update. -/
def adjustWith (chain : List Block) (s : DiffState) (latest : Block) : Retarget × DiffState :=
  if latest.index < s.adjustment_interval then (.notEnough, s)
  else if (latest.index + 1) % s.adjustment_interval ≠ 0 then (.notAtBoundary, s)
  else if ((lastWindow s.adjustment_interval chain).length : Int) < s.adjustment_interval then
    (.notEnoughWindow, s)
  else if expectedTime s = 0 then (.invalidTime, s)
  else if retargetRatio chain s < 1/2 then
    (.increased, { s with difficulty := min 10 (s.difficulty + 1) })
  else if retargetRatio chain s > 2 then
    (.decreased, { s with difficulty := max 1 (s.difficulty - 1) })
  else (.unchanged, s)

/-- `Blockchain.adjust_difficulty`, over the chain in ascending index order
(the database state) and the difficulty state. Returns the outcome and the
new state. -/
def adjust_difficulty (chain : List Block) (s : DiffState) : Retarget × DiffState :=
  match chain.getLast? with
  | none => (.notEnough, s)
  | some latest => adjustWith chain s latest

/-- `Blockchain.create_genesis_block`: index 0, the genesis marker payload,
`previous_hash = '0'`, nonce 0, hash computed (never mined). -/
def create_genesis_block (ctx : HashCtx) (now : ℚ) : Block :=
  let g : Block :=
    { index := 0, timestamp := now, data := .genesis, previous_hash := "0",
      nonce := 0, hash := "" }
  { g with hash := calculate_hash ctx g }

/-- `Blockchain.add_block`: creates genesis when the store is empty,
otherwise builds the candidate at `latest.index + 1` referencing
`latest.hash`, computes its hash and mines it at the given difficulty.
Returns the new block and the extended chain; `none` only when the mining
fuel runs out. The candidate construction of `add_block` is split out as
`candidateBlock`: the new block at `latest.index + 1` referencing
`latest.hash`, nonce 0, hash computed. -/
def candidateBlock (ctx : HashCtx) (now : ℚ) (data : BlockData) (latest : Block) : Block :=
  let c : Block :=
    { index := latest.index + 1, timestamp := now, data := data,
      previous_hash := latest.hash, nonce := 0, hash := "" }
  { c with hash := calculate_hash ctx c }

def add_block (ctx : HashCtx) (fuel : Nat) (now : ℚ) (data : BlockData)
    (chain : List Block) (difficulty : Nat) : Option (Block × List Block) :=
  match chain.getLast? with
  | none =>
    let g := create_genesis_block ctx now
    some (g, chain ++ [g])
  | some latest =>
    match mine_block ctx difficulty fuel (candidateBlock ctx now data latest) with
    | none => none
    | some m => some (m, chain ++ [m])

/-- The result variants of `Blockchain.validate_chain`, carrying the failing
block's `index` as named in the returned message. -/
inductive ValidationResult where
  | valid
  | invalidHash (idx : Int)
  | invalidLinkage (idx : Int)
deriving DecidableEq

/-- The body of the `validate_chain` loop from position 1 onwards: `prev`
is the block at the previous position. -/
def validateFrom (ctx : HashCtx) (prev : Block) : List Block → ValidationResult
  | [] => .valid
  | b :: rest =>
    if b.hash ≠ calculate_hash ctx b then .invalidHash b.index
    else if b.previous_hash ≠ prev.hash then .invalidLinkage b.index
    else validateFrom ctx b rest

/-- `Blockchain.validate_chain` over the stored blocks in ascending index
order: position 0 (genesis) is skipped. -/
def validate_chain (ctx : HashCtx) : List Block → ValidationResult
  | [] => .valid
  | g :: rest => validateFrom ctx g rest

/-- The whole database plus the class-level difficulty state. The chain is
kept in ascending index order, transactions in creation order. -/
structure LedgerState where
  chain : List Block
  txs : List Tx
  diff : DiffState
deriving DecidableEq, Inhabited

/-- The `pending_txs.update(block=new_block, pending=False)` bulk update,
applied to one transaction row. -/
def settleTx (idx : Int) (t : Tx) : Tx :=
  if t.pending then { t with block := some idx, pending := false } else t

/-- `Blockchain.MINING_REWARD`. -/
def MINING_REWARD : ℚ := 10

/-- `Blockchain.mine_pending_transactions`: the `(None, None)` no-op when no
transaction is pending; otherwise snapshot the pending transactions into the
new block's payload, `add_block`, flip the pending transactions to settled
referencing the new block, mint the reward transaction, and (if enabled)
run `adjust_difficulty` on the updated chain. The outer `Option` is mining
fuel exhaustion; the inner components mirror the Python return pair, with
the state threaded explicitly. -/
def mine_pending_transactions (ctx : HashCtx) (fuel : Nat) (now : ℚ)
    (mining_reward_address : String) (auto_adjust : Bool) (st : LedgerState) :
    Option (Option Block × Option Retarget × LedgerState) :=
  let pending := st.txs.filter (fun t => t.pending)
  if pending = [] then some (none, none, st)
  else
    let tx_data := BlockData.txList (pending.map Tx.to_dict)
    match add_block ctx fuel now tx_data st.chain st.diff.difficulty.toNat with
    | none => none
    | some (new_block, chain') =>
      let txs' := st.txs.map (settleTx new_block.index)
      let reward : Tx :=
        { sender := "SYSTEM", receiver := mining_reward_address,
          amount := MINING_REWARD, timestamp := now, block := none,
          pending := true }
      let txs'' := txs' ++ [reward]
      if auto_adjust then
        let r := adjust_difficulty chain' st.diff
        some (some new_block,
              (if r.1.adjusted then some r.1 else none),
              { chain := chain', txs := txs'', diff := r.2 })
      else
        some (some new_block, none, { chain := chain', txs := txs'', diff := st.diff })

/-- The two responses of the `initialize_blockchain` view. -/
inductive InitResult where
  | created (b : Block)
  | alreadyInit
deriving DecidableEq

/-- The `initialize_blockchain` view: a no-op reporting the ledger as
already initialized when any block exists, otherwise genesis creation. -/
def init_blockchain (ctx : HashCtx) (now : ℚ) (chain : List Block) :
    InitResult × List Block :=
  if chain.isEmpty then
    let g := create_genesis_block ctx now
    (.created g, chain ++ [g])
  else (.alreadyInit, chain)

/-- The loop body of the `get_balance` view: add the amount when the
address is the receiver, subtract it when the address is the sender. -/
def balStep (address : String) (balance : ℚ) (t : Tx) : ℚ :=
  let balance := if t.receiver = address then balance + t.amount else balance
  if t.sender = address then balance - t.amount else balance

/-- The `get_balance` view: fold the loop body over
`Transaction.objects.filter(pending=False)` starting from 0. -/
def get_balance (address : String) (txs : List Tx) : ℚ :=
  (txs.filter (fun t => !t.pending)).foldl (balStep address) 0

/-- The claim of §8 that a mined hash starts with exactly `d` zero
characters: the first `d` characters are zeros and the first `d + 1` are
not all zeros. -/
def leadingZerosExactly (d : Nat) (s : String) : Prop :=
  strTake s d = zeros d ∧ strTake s (d + 1) ≠ zeros (d + 1)

instance (d : Nat) (s : String) : Decidable (leadingZerosExactly d s) := by
  unfold leadingZerosExactly; infer_instance

/-!
## Concrete instances used to exercise the theorems

The SHA-256 digest only enters the engine through `HashCtx.sha256`; a
constant digest function makes every run of the engine computable by the
kernel while exercising exactly the same control flow.
-/

/-- A hashing context whose digest is the constant `h`. -/
def ctxConst (h : String) : HashCtx :=
  { sha256 := fun _ => h, dumps := fun _ => "" }

def ctxH : HashCtx := ctxConst "h"

def ctx0s : HashCtx := ctxConst "0000000000"

def ctx00x : HashCtx := ctxConst "00x"

def ctxAbc : HashCtx := ctxConst "abc"

/-- A genesis block under `ctxH`; its hash is `"h"`. -/
def gH : Block := create_genesis_block ctxH 0

/-- A genesis block under `ctx00x`; its hash is `"00x"`. -/
def gA : Block := create_genesis_block ctx00x 0

def bWbase : Block :=
  { index := 1, timestamp := 2, data := .genesis, previous_hash := "p",
    nonce := 0, hash := "" }

/-- A block whose hash field is its recomputed digest under `ctx0s`. -/
def bW : Block := { bWbase with hash := calculate_hash ctx0s bWbase }

/-- A block whose hash field meets a difficulty-1 target but is not its
recomputed digest under `ctxAbc`. -/
def bStale : Block :=
  { index := 1, timestamp := 2, data := .genesis, previous_hash := "p",
    nonce := 0, hash := "0" }

/-- A block with a correct hash under `ctxH` but a previous-hash field that
does not match `gH`. -/
def bLinkBad : Block :=
  { index := 1, timestamp := 0, data := .genesis, previous_hash := "x",
    nonce := 0, hash := "h" }

/-- The block `add_block ctx00x 0 5 .genesis [gA] 1` produces. -/
def bMined : Block :=
  { index := 1, timestamp := 5, data := .genesis, previous_hash := "00x",
    nonce := 0, hash := "00x" }

/-- A pending user transaction. -/
def txP : Tx :=
  { sender := "A", receiver := "B", amount := 50, timestamp := 0,
    block := none, pending := true }

/-- A ledger with a pending transaction but no blocks at all. -/
def stEmptyChain : LedgerState :=
  { chain := [], txs := [txP],
    diff := { difficulty := 2, target_block_time := 10, adjustment_interval := 5 } }

/-- A ledger with a genesis block and one pending transaction. -/
def stW : LedgerState :=
  { chain := [gH], txs := [txP],
    diff := { difficulty := 1, target_block_time := 10, adjustment_interval := 5 } }

/-- The block a settlement round on `stW` under `ctx0s` produces. -/
def nbW : Block :=
  { index := 1, timestamp := 7, data := .txList [txP.to_dict],
    previous_hash := "h", nonce := 0, hash := "0000000000" }

/-- The reward transaction of that settlement round. -/
def rewardW : Tx :=
  { sender := "SYSTEM", receiver := "Miner1", amount := MINING_REWARD,
    timestamp := 7, block := none, pending := true }

/-- The full result of that settlement round. -/
def resW : Option Block × Option Retarget × LedgerState :=
  (some nbW, none,
    { chain := [gH, nbW], txs := [settleTx 1 txP, rewardW],
      diff := { difficulty := 1, target_block_time := 10, adjustment_interval := 5 } })

/-- Two chain blocks for a retarget at interval 2: ten times faster than
the ten-second target. -/
def cA : Block :=
  { index := 2, timestamp := 0, data := .genesis, previous_hash := "q",
    nonce := 0, hash := "h" }

def cB : Block :=
  { index := 3, timestamp := 1, data := .genesis, previous_hash := "h",
    nonce := 0, hash := "h" }

/-- A difficulty state with a two-block adjustment interval. -/
def sRet : DiffState :=
  { difficulty := 4, target_block_time := 10, adjustment_interval := 2 }

/-- The default difficulty state of the `Blockchain` class. -/
def sW : DiffState :=
  { difficulty := 4, target_block_time := 10, adjustment_interval := 5 }

/-!
## Shared lemmas about the mining loop
-/

/-- A block whose hash already meets the target is returned unchanged, for
any fuel. -/
theorem mine_block_of_meets (ctx : HashCtx) (d : Nat) (fuel : Nat) (b : Block)
    (h : strTake b.hash d = zeros d) : mine_block ctx d fuel b = some b := by
  cases fuel <;> simp [mine_block, h]

/-- One loop iteration leaves every field other than `nonce` and `hash`
unchanged and increments `nonce`. -/
theorem mineStep_fields (ctx : HashCtx) (b : Block) :
    (mineStep ctx b).index = b.index ∧ (mineStep ctx b).timestamp = b.timestamp ∧
    (mineStep ctx b).data = b.data ∧ (mineStep ctx b).previous_hash = b.previous_hash ∧
    (mineStep ctx b).nonce = b.nonce + 1 :=
  ⟨rfl, rfl, rfl, rfl, rfl⟩

/-- After a loop iteration the hash field is the recomputed digest. -/
theorem mineStep_hash (ctx : HashCtx) (b : Block) :
    (mineStep ctx b).hash = calculate_hash ctx (mineStep ctx b) := rfl

/-- A successfully mined block meets the proof-of-work target. -/
theorem mine_block_meets (ctx : HashCtx) (d : Nat) :
    ∀ (fuel : Nat) (b b' : Block), mine_block ctx d fuel b = some b' →
      strTake b'.hash d = zeros d := by
  intro fuel
  induction fuel with
  | zero =>
    intro b b' h
    simp only [mine_block] at h
    split at h
    · cases h; assumption
    · cases h
  | succ f ih =>
    intro b b' h
    simp only [mine_block] at h
    split at h
    · cases h; assumption
    · exact ih _ _ h

/-- Mining changes only `nonce` and `hash`, and never decreases `nonce`. -/
theorem mine_block_fields (ctx : HashCtx) (d : Nat) :
    ∀ (fuel : Nat) (b b' : Block), mine_block ctx d fuel b = some b' →
      b'.index = b.index ∧ b'.timestamp = b.timestamp ∧ b'.data = b.data ∧
      b'.previous_hash = b.previous_hash ∧ b.nonce ≤ b'.nonce := by
  intro fuel
  induction fuel with
  | zero =>
    intro b b' h
    simp only [mine_block] at h
    split at h
    · cases h; exact ⟨rfl, rfl, rfl, rfl, le_refl _⟩
    · cases h
  | succ f ih =>
    intro b b' h
    simp only [mine_block] at h
    split at h
    · cases h; exact ⟨rfl, rfl, rfl, rfl, le_refl _⟩
    · obtain ⟨h1, h2, h3, h4, h5⟩ := ih _ _ h
      refine ⟨h1, h2, h3, h4, ?_⟩
      have : (mineStep ctx b).nonce = b.nonce + 1 := rfl
      omega

/-- If the hash field equals the recomputed digest on entry, it still does
on exit. -/
theorem mine_block_hash_inv (ctx : HashCtx) (d : Nat) :
    ∀ (fuel : Nat) (b b' : Block), b.hash = calculate_hash ctx b →
      mine_block ctx d fuel b = some b' → b'.hash = calculate_hash ctx b' := by
  intro fuel
  induction fuel with
  | zero =>
    intro b b' hb h
    simp only [mine_block] at h
    split at h
    · cases h; assumption
    · cases h
  | succ f ih =>
    intro b b' hb h
    simp only [mine_block] at h
    split at h
    · cases h; assumption
    · exact ih _ _ (mineStep_hash ctx b) h

/-- Folding the balance step over the settled part of a transaction list
adds the settled amounts received and subtracts the settled amounts sent. -/
theorem balStep_foldl (address : String) :
    ∀ (txs : List Tx) (acc : ℚ),
      (txs.filter (fun t => !t.pending)).foldl (balStep address) acc =
        acc
          + ((txs.filter (fun t => !t.pending && (t.receiver == address))).map Tx.amount).sum
          - ((txs.filter (fun t => !t.pending && (t.sender == address))).map Tx.amount).sum := by
  intro txs
  induction txs with
  | nil => intro acc; simp
  | cons t rest ih =>
    intro acc
    by_cases hp : t.pending
    · simp [List.filter_cons, hp, ih]
    · by_cases hr : t.receiver = address <;> by_cases hs : t.sender = address <;>
        simp [List.filter_cons, hp, hr, hs, balStep, ih] <;> ring

/-- C7: for every address and transaction list, the balance equals the sum
of settled amounts received minus the sum of settled amounts sent, and a
pending transaction contributes nothing. -/
theorem balance_law (address : String) (txs : List Tx) :
    (get_balance address txs =
      ((txs.filter (fun t => !t.pending && (t.receiver == address))).map Tx.amount).sum
        - ((txs.filter (fun t => !t.pending && (t.sender == address))).map Tx.amount).sum) ∧
    (∀ t : Tx, t.pending = true →
      get_balance address (t :: txs) = get_balance address txs) := by
  constructor
  · have h := balStep_foldl address txs 0
    simpa [get_balance] using h
  · intro t ht
    simp [get_balance, List.filter_cons, ht]

/-- C7 witness: the balance law applied to a single pending transaction. -/
theorem balance_law_witness :
    txP.pending = true ∧ get_balance "A" [txP] = get_balance "A" [] :=
  ⟨rfl, (balance_law "A" []).2 txP rfl⟩

/-- C6: set_difficulty fails and leaves the state unchanged outside
`[1, 10]`, succeeds and replaces the difficulty inside it, and these are
the only two outcomes. -/
theorem difficulty_setter (new : Int) (s : DiffState) :
    ((new < 1 ∨ 10 < new) → set_difficulty new s = (false, s)) ∧
    (1 ≤ new → new ≤ 10 →
      set_difficulty new s = (true, { s with difficulty := new })) ∧
    (set_difficulty new s = (false, s) ∨
      set_difficulty new s = (true, { s with difficulty := new })) := by
  refine ⟨?_, ?_, ?_⟩ <;> unfold set_difficulty
  · intro h; rw [if_pos]; omega
  · intro h1 h2; rw [if_neg]; omega
  · split_ifs <;> simp

/-- C6 witness: setting difficulty 5 on the default state succeeds. -/
theorem difficulty_setter_witness :
    (1 : Int) ≤ 5 ∧ (5 : Int) ≤ 10 ∧
      set_difficulty 5 sW = (true, { sW with difficulty := 5 }) :=
  ⟨by decide, by decide, (difficulty_setter 5 sW).2.1 (by decide) (by decide)⟩

/-- C5: creating genesis from an empty store yields exactly one block with
index 0, previous_hash "0" and nonce 0; a second call, and any call on a
non-empty store, is a no-op reporting the ledger as already initialized. -/
theorem genesis_idempotence (ctx : HashCtx) (now now' : ℚ) :
    ((init_blockchain ctx now []).2.length = 1 ∧
     ((init_blockchain ctx now []).2.getD 0 default).index = 0 ∧
     ((init_blockchain ctx now []).2.getD 0 default).previous_hash = "0" ∧
     ((init_blockchain ctx now []).2.getD 0 default).nonce = 0 ∧
     init_blockchain ctx now' (init_blockchain ctx now []).2 =
       (.alreadyInit, (init_blockchain ctx now []).2)) ∧
    (∀ chain : List Block, chain ≠ [] →
      init_blockchain ctx now chain = (.alreadyInit, chain)) := by
  constructor
  · refine ⟨rfl, rfl, rfl, rfl, rfl⟩
  · intro chain hch
    unfold init_blockchain
    rw [if_neg]
    simpa using hch

/-- C5 witness: a second initialization on a one-block chain is a no-op. -/
theorem genesis_idempotence_witness :
    [gH] ≠ ([] : List Block) ∧
      init_blockchain ctxH 1 [gH] = (.alreadyInit, [gH]) :=
  ⟨by decide, (genesis_idempotence ctxH 1 1).2 [gH] (by decide)⟩

/-- C10: validating an empty chain or a chain holding only a genesis block
returns the valid result, whatever the genesis block's hash and
previous_hash are. -/
theorem validate_trivial_chains (ctx : HashCtx) :
    validate_chain ctx [] = .valid ∧
      ∀ g : Block, validate_chain ctx [g] = .valid :=
  ⟨rfl, fun _ => rfl⟩

/-- Running the loop from a block whose hash field is its digest, when the
first target-meeting nonce offset is exactly `k`, terminates in `k`
iterations at nonce `b.nonce + k`. -/
theorem mine_block_exact (ctx : HashCtx) (d : Nat) :
    ∀ (k : Nat) (b : Block), b.hash = calculate_hash ctx b →
      (∀ j : Nat, j < k → strTake (digestAt ctx b (b.nonce + j)) d ≠ zeros d) →
      strTake (digestAt ctx b (b.nonce + k)) d = zeros d →
      ∃ b', mine_block ctx d k b = some b' ∧ b'.nonce = b.nonce + k := by
  intro k
  induction k with
  | zero =>
    intro b hb _ hk
    have hcalc : digestAt ctx b b.nonce = calculate_hash ctx b := rfl
    have hmeets : strTake b.hash d = zeros d := by
      rw [hb, ← hcalc]
      simpa using hk
    exact ⟨b, mine_block_of_meets ctx d 0 b hmeets, by simp⟩
  | succ k ih =>
    intro b hb hlt hk
    have hcalc : digestAt ctx b b.nonce = calculate_hash ctx b := rfl
    have h0 : strTake b.hash d ≠ zeros d := by
      have h := hlt 0 (Nat.succ_pos k)
      rw [Nat.cast_zero, add_zero, hcalc] at h
      rw [hb]
      exact h
    have hstep : (mineStep ctx b).nonce = b.nonce + 1 := rfl
    have hdig : ∀ n : Int, digestAt ctx (mineStep ctx b) n = digestAt ctx b n :=
      fun _ => rfl
    obtain ⟨b', hmine, hnonce⟩ := ih (mineStep ctx b) (mineStep_hash ctx b)
      (fun j hj => by
        rw [hdig, hstep]
        have harith : b.nonce + 1 + (j : Int) = b.nonce + ((j + 1 : Nat) : Int) := by
          push_cast; ring
        rw [harith]
        exact hlt (j + 1) (Nat.succ_lt_succ hj))
      (by
        rw [hdig, hstep]
        have harith : b.nonce + 1 + (k : Int) = b.nonce + ((k + 1 : Nat) : Int) := by
          push_cast; ring
        rw [harith]
        exact hk)
    refine ⟨b', ?_, ?_⟩
    · simp only [mine_block]
      rw [if_neg h0]
      exact hmine
    · rw [hnonce, hstep]
      push_cast
      ring

/-- C9: from a block whose hash field equals its recomputed digest, if some
nonce at or above the starting nonce meets the target, the loop terminates
with the smallest such nonce, the recomputed digest as hash, and all other
fields unchanged; a block already meeting the target is returned at once,
untouched. -/
theorem miner_minimality (ctx : HashCtx) (d : Nat) (b : Block)
    (hentry : b.hash = calculate_hash ctx b) :
    ((∃ k : Nat, strTake (digestAt ctx b (b.nonce + k)) d = zeros d) →
      ∃ fuel b', mine_block ctx d fuel b = some b' ∧
        b'.hash = calculate_hash ctx b' ∧
        strTake b'.hash d = zeros d ∧
        b.nonce ≤ b'.nonce ∧
        strTake (digestAt ctx b b'.nonce) d = zeros d ∧
        (∀ m : Int, b.nonce ≤ m → m < b'.nonce →
          strTake (digestAt ctx b m) d ≠ zeros d) ∧
        b'.index = b.index ∧ b'.timestamp = b.timestamp ∧
        b'.data = b.data ∧ b'.previous_hash = b.previous_hash) ∧
    (strTake b.hash d = zeros d → ∀ fuel : Nat, mine_block ctx d fuel b = some b) := by
  constructor
  · intro hex
    have hk0 := Nat.find_spec hex
    have hmin : ∀ j : Nat, j < Nat.find hex →
        strTake (digestAt ctx b (b.nonce + j)) d ≠ zeros d :=
      fun j hj => Nat.find_min hex hj
    obtain ⟨b', hmine, hnonce⟩ :=
      mine_block_exact ctx d (Nat.find hex) b hentry hmin hk0
    obtain ⟨hf1, hf2, hf3, hf4, _⟩ := mine_block_fields ctx d (Nat.find hex) b b' hmine
    refine ⟨Nat.find hex, b', hmine,
      mine_block_hash_inv ctx d (Nat.find hex) b b' hentry hmine,
      mine_block_meets ctx d (Nat.find hex) b b' hmine, ?_, ?_, ?_, hf1, hf2, hf3, hf4⟩
    · rw [hnonce]; omega
    · rw [hnonce]; exact hk0
    · intro m h1 h2
      rw [hnonce] at h2
      have hm : m = b.nonce + ((m - b.nonce).toNat : Int) := by omega
      have hj : (m - b.nonce).toNat < Nat.find hex := by omega
      rw [hm]
      exact hmin _ hj
  · intro hm fuel
    exact mine_block_of_meets ctx d fuel b hm

/-- C9 witness: a block already meeting the difficulty-4 target returns at
once, untouched. -/
theorem miner_minimality_witness : mine_block ctx0s 4 7 bW = some bW :=
  (miner_minimality ctx0s 4 bW rfl).2 (by decide) 7

/-- C2 (amended): for a block whose hash field equals its recomputed digest
on entry and any difficulty in `[1, 10]`, when the loop returns, the hash
field equals the digest recomputed from the block's fields, its first
`difficulty` characters are all the zero character, and no field other than
nonce and hash has changed. -/
theorem miner_contract (ctx : HashCtx) (d fuel : Nat) (b b' : Block)
    (_hd1 : 1 ≤ d) (_hd10 : d ≤ 10)
    (hentry : b.hash = calculate_hash ctx b)
    (hret : mine_block ctx d fuel b = some b') :
    b'.hash = calculate_hash ctx b' ∧
    strTake b'.hash d = zeros d ∧
    b'.index = b.index ∧ b'.timestamp = b.timestamp ∧
    b'.data = b.data ∧ b'.previous_hash = b.previous_hash := by
  obtain ⟨h1, h2, h3, h4, _⟩ := mine_block_fields ctx d fuel b b' hret
  exact ⟨mine_block_hash_inv ctx d fuel b b' hentry hret,
    mine_block_meets ctx d fuel b b' hret, h1, h2, h3, h4⟩

/-- C2 counterexample: a block whose hash field already meets the target
but is not its recomputed digest is returned unchanged, so the returned
hash differs from the recomputed digest. -/
theorem miner_contract_counterexample :
    (1 : Nat) ≤ 1 ∧ (1 : Nat) ≤ 10 ∧
    mine_block ctxAbc 1 3 bStale = some bStale ∧
    bStale.hash ≠ calculate_hash ctxAbc bStale := by decide

/-- C2 witness: the amended contract applied to a block with a correct
hash under a digest that meets difficulty 4 at once. -/
theorem miner_contract_witness :
    bW.hash = calculate_hash ctx0s bW ∧
    (bW.hash = calculate_hash ctx0s bW ∧
     strTake bW.hash 4 = zeros 4 ∧
     bW.index = bW.index ∧ bW.timestamp = bW.timestamp ∧
     bW.data = bW.data ∧ bW.previous_hash = bW.previous_hash) :=
  ⟨rfl, miner_contract ctx0s 4 0 bW bW (by decide) (by decide) rfl (by decide)⟩

/-- C8 (amended): every block mined by `add_block` onto a non-empty chain
has a hash whose first `difficulty` characters are all zeros, for the
difficulty passed at mining time (the code guarantees at least that many
leading zeros, not exactly that many). -/
theorem pow_prefix_at_least (ctx : HashCtx) (fuel : Nat) (now : ℚ)
    (data : BlockData) (chain : List Block) (d : Nat) (b : Block)
    (c' : List Block) (hne : chain ≠ [])
    (h : add_block ctx fuel now data chain d = some (b, c')) :
    strTake b.hash d = zeros d := by
  obtain ⟨latest, hl⟩ := Option.isSome_iff_exists.mp (List.getLast?_isSome.mpr hne)
  unfold add_block at h
  split at h
  next heq => rw [hl] at heq; cases heq
  next latest' heq =>
    split at h
    next hm => exact Option.noConfusion h
    next m hm =>
      simp only [Option.some.injEq, Prod.mk.injEq] at h
      obtain ⟨rfl, -⟩ := h
      exact mine_block_meets ctx d fuel _ _ hm

/-- C8 counterexample: a block mined at difficulty 1 whose hash begins with
two zero characters — its hash does not start with exactly one zero. -/
theorem pow_prefix_counterexample :
    add_block ctx00x 0 5 BlockData.genesis [gA] 1 = some (bMined, [gA, bMined]) ∧
    ¬ leadingZerosExactly 1 bMined.hash := by decide

/-- C8 witness: the amended leading-zero bound on that same mined block. -/
theorem pow_prefix_witness :
    [gA] ≠ ([] : List Block) ∧ strTake bMined.hash 1 = zeros 1 :=
  ⟨by decide,
    pow_prefix_at_least ctx00x 0 5 BlockData.genesis [gA] 1 bMined [gA, bMined]
      (by decide) (by decide)⟩

/-- The validator loop from a given predecessor succeeds exactly when every
position has a correct hash and links to the element before it in the
predecessor-extended list. -/
theorem validateFrom_valid_iff (ctx : HashCtx) :
    ∀ (l : List Block) (prev : Block),
      validateFrom ctx prev l = .valid ↔
        ∀ i : Nat, i < l.length →
          (l.getD i default).hash = calculate_hash ctx (l.getD i default) ∧
          (l.getD i default).previous_hash = ((prev :: l).getD i default).hash := by
  intro l
  induction l with
  | nil => intro prev; simp [validateFrom]
  | cons b rest ih =>
    intro prev
    simp only [validateFrom]
    split_ifs with h1 h2
    · constructor
      · intro h; exact absurd h (by simp)
      · intro h; exact absurd (h 0 (by simp)).1 h1
    · constructor
      · intro h; exact absurd h (by simp)
      · intro h
        have := (h 0 (by simp)).2
        simp only [List.getD_cons_zero] at this
        exact absurd this h2
    · rw [ih b]
      constructor
      · intro h i hi
        cases i with
        | zero =>
          simp only [List.getD_cons_zero]
          exact ⟨not_not.mp h1, not_not.mp h2⟩
        | succ i =>
          simp only [List.getD_cons_succ]
          exact h i (by simpa using hi)
      · intro h i hi
        have := h (i + 1) (by simpa using Nat.succ_lt_succ hi)
        simpa using this

/-- When every position below `i` passes both checks and position `i` has a
wrong hash, the loop reports the invalid hash of the block at `i`. -/
theorem validateFrom_invalidHash (ctx : HashCtx) :
    ∀ (l : List Block) (prev : Block) (i : Nat),
      (∀ j : Nat, j < i →
        (l.getD j default).hash = calculate_hash ctx (l.getD j default) ∧
        (l.getD j default).previous_hash = ((prev :: l).getD j default).hash) →
      i < l.length →
      (l.getD i default).hash ≠ calculate_hash ctx (l.getD i default) →
      validateFrom ctx prev l = .invalidHash (l.getD i default).index := by
  intro l
  induction l with
  | nil => intro prev i _ hi; simp at hi
  | cons b rest ih =>
    intro prev i hok hi hbad
    cases i with
    | zero =>
      simp only [List.getD_cons_zero] at hbad ⊢
      simp [validateFrom, hbad]
    | succ i =>
      have h0 := hok 0 (Nat.succ_pos i)
      simp only [List.getD_cons_zero] at h0
      simp only [validateFrom]
      rw [if_neg (not_not_intro h0.1), if_neg (not_not_intro h0.2)]
      simp only [List.getD_cons_succ] at hbad ⊢
      exact ih b i
        (fun j hj => by simpa using hok (j + 1) (Nat.succ_lt_succ hj))
        (by simpa using hi) hbad

/-- When every position below `i` passes both checks and position `i` has a
correct hash but a wrong previous-hash link, the loop reports the invalid
linkage of the block at `i`. -/
theorem validateFrom_invalidLinkage (ctx : HashCtx) :
    ∀ (l : List Block) (prev : Block) (i : Nat),
      (∀ j : Nat, j < i →
        (l.getD j default).hash = calculate_hash ctx (l.getD j default) ∧
        (l.getD j default).previous_hash = ((prev :: l).getD j default).hash) →
      i < l.length →
      (l.getD i default).hash = calculate_hash ctx (l.getD i default) →
      (l.getD i default).previous_hash ≠ ((prev :: l).getD i default).hash →
      validateFrom ctx prev l = .invalidLinkage (l.getD i default).index := by
  intro l
  induction l with
  | nil => intro prev i _ hi; simp at hi
  | cons b rest ih =>
    intro prev i hok hi hgood hbad
    cases i with
    | zero =>
      simp only [List.getD_cons_zero] at hgood hbad ⊢
      simp [validateFrom, hgood, hbad]
    | succ i =>
      have h0 := hok 0 (Nat.succ_pos i)
      simp only [List.getD_cons_zero] at h0
      simp only [validateFrom]
      rw [if_neg (not_not_intro h0.1), if_neg (not_not_intro h0.2)]
      simp only [List.getD_cons_succ] at hgood hbad ⊢
      exact ih b i
        (fun j hj => by simpa using hok (j + 1) (Nat.succ_lt_succ hj))
        (by simpa using hi) hgood hbad

/-- C1: validation skips the block at position 0, recomputes every later
block's digest and checks its linkage to the preceding block in that order,
returns the valid result exactly when every non-genesis block passes both
checks, and at the first failing block reports the invalid hash or invalid
linkage naming that block's index. -/
theorem chain_validation (ctx : HashCtx) (bs : List Block) :
    (validate_chain ctx bs = .valid ↔
      ∀ i : Nat, 1 ≤ i → i < bs.length →
        (bs.getD i default).hash = calculate_hash ctx (bs.getD i default) ∧
        (bs.getD i default).previous_hash = (bs.getD (i - 1) default).hash) ∧
    (∀ i : Nat, 1 ≤ i → i < bs.length →
      (∀ j : Nat, 1 ≤ j → j < i →
        (bs.getD j default).hash = calculate_hash ctx (bs.getD j default) ∧
        (bs.getD j default).previous_hash = (bs.getD (j - 1) default).hash) →
      ((bs.getD i default).hash ≠ calculate_hash ctx (bs.getD i default) →
        validate_chain ctx bs = .invalidHash (bs.getD i default).index) ∧
      ((bs.getD i default).hash = calculate_hash ctx (bs.getD i default) →
        (bs.getD i default).previous_hash ≠ (bs.getD (i - 1) default).hash →
        validate_chain ctx bs = .invalidLinkage (bs.getD i default).index)) := by
  cases bs with
  | nil =>
    constructor
    · constructor
      · intro _ i h1 h2; simp at h2
      · intro _; rfl
    · intro i h1 h2; simp at h2
  | cons g rest =>
    constructor
    · rw [show validate_chain ctx (g :: rest) = validateFrom ctx g rest from rfl,
        validateFrom_valid_iff ctx rest g]
      constructor
      · intro h i h1 hi
        obtain ⟨i', rfl⟩ : ∃ i', i = i' + 1 := ⟨i - 1, by omega⟩
        have := h i' (by simpa using hi)
        simpa using this
      · intro h i hi
        have := h (i + 1) (by omega) (by simpa using Nat.succ_lt_succ hi)
        simpa using this
    · intro i h1 hi hok
      obtain ⟨i', rfl⟩ : ∃ i', i = i' + 1 := ⟨i - 1, by omega⟩
      have hok' : ∀ j : Nat, j < i' →
          (rest.getD j default).hash = calculate_hash ctx (rest.getD j default) ∧
          (rest.getD j default).previous_hash = ((g :: rest).getD j default).hash := by
        intro j hj
        have := hok (j + 1) (by omega) (by omega)
        simpa using this
      constructor
      · intro hbad
        have := validateFrom_invalidHash ctx rest g i' hok'
          (by simpa using hi) (by simpa using hbad)
        simpa using this
      · intro hgood hbad
        have := validateFrom_invalidLinkage ctx rest g i' hok'
          (by simpa using hi) (by simpa using hgood) (by simpa using hbad)
        simpa using this

/-- C1 witness: a two-block chain whose second block has a correct hash but
a broken link is reported as invalid linkage at index 1. -/
theorem chain_validation_witness :
    validate_chain ctxH [gH, bLinkBad] = .invalidLinkage 1 := by
  have h := (chain_validation ctxH [gH, bLinkBad]).2 1 (by omega) (by decide)
    (fun j hj1 hj2 => (by omega : False).elim)
  exact h.2 (by decide) (by decide)

/-- Unfolding `adjust_difficulty` when the store is empty. -/
theorem adjust_difficulty_none (chain : List Block) (s : DiffState)
    (h : chain.getLast? = none) :
    adjust_difficulty chain s = (.notEnough, s) := by
  unfold adjust_difficulty
  rw [h]

/-- Unfolding `adjust_difficulty` when the store has a latest block. -/
theorem adjust_difficulty_some (chain : List Block) (s : DiffState)
    (latest : Block) (h : chain.getLast? = some latest) :
    adjust_difficulty chain s = adjustWith chain s latest := by
  unfold adjust_difficulty
  rw [h]

/-- C3: the retarget changes the difficulty only when the latest block's
index n satisfies n >= adjustment_interval and (n + 1) mod
adjustment_interval = 0 and the ratio of actual window time to
target_block_time * (adjustment_interval - 1) is below 1/2 (difficulty
raised to min 10 (d + 1)) or above 2 (difficulty lowered to max 1 (d - 1));
a difficulty in [1, 10] stays in [1, 10]; in every other case (no latest
block, too few blocks, not at a boundary, short window, zero expected time,
or ratio within [1/2, 2]) the state is unchanged. -/
theorem retarget_law (chain : List Block) (s : DiffState) :
    ((adjust_difficulty chain s).2.difficulty ≠ s.difficulty →
      ∃ latest, chain.getLast? = some latest ∧
        s.adjustment_interval ≤ latest.index ∧
        (latest.index + 1) % s.adjustment_interval = 0 ∧
        (retargetRatio chain s < 1/2 ∨ 2 < retargetRatio chain s)) ∧
    (∀ latest, chain.getLast? = some latest →
      s.adjustment_interval ≤ latest.index →
      (latest.index + 1) % s.adjustment_interval = 0 →
      s.adjustment_interval ≤ ((lastWindow s.adjustment_interval chain).length : Int) →
      expectedTime s ≠ 0 →
      ((retargetRatio chain s < 1/2 →
          adjust_difficulty chain s =
            (.increased, { s with difficulty := min 10 (s.difficulty + 1) })) ∧
       (2 < retargetRatio chain s →
          adjust_difficulty chain s =
            (.decreased, { s with difficulty := max 1 (s.difficulty - 1) })) ∧
       (1/2 ≤ retargetRatio chain s → retargetRatio chain s ≤ 2 →
          adjust_difficulty chain s = (.unchanged, s)))) ∧
    (1 ≤ s.difficulty → s.difficulty ≤ 10 →
      1 ≤ (adjust_difficulty chain s).2.difficulty ∧
      (adjust_difficulty chain s).2.difficulty ≤ 10) := by
  refine ⟨?_, ?_, ?_⟩
  · intro hch
    rcases hl : chain.getLast? with _ | latest
    · rw [adjust_difficulty_none chain s hl] at hch
      exact absurd rfl hch
    · rw [adjust_difficulty_some chain s latest hl] at hch
      unfold adjustWith at hch
      split_ifs at hch with h1 h2 h3 h4 h5 h6 <;>
        first
          | exact absurd rfl hch
          | exact ⟨latest, rfl, by omega, by omega, by tauto⟩
  · intro latest hl hidx hmod hlen hexp
    rw [adjust_difficulty_some chain s latest hl]
    unfold adjustWith
    have h1 : ¬(latest.index < s.adjustment_interval) := by omega
    have h2 : ¬((latest.index + 1) % s.adjustment_interval ≠ 0) := not_not_intro hmod
    have h3 : ¬(((lastWindow s.adjustment_interval chain).length : Int)
        < s.adjustment_interval) := by omega
    rw [if_neg h1, if_neg h2, if_neg h3, if_neg hexp]
    refine ⟨?_, ?_, ?_⟩
    · intro hr
      rw [if_pos hr]
    · intro hr
      have hn1 : ¬(retargetRatio chain s < 1/2) := by linarith
      have hgt : retargetRatio chain s > 2 := hr
      rw [if_neg hn1, if_pos hgt]
    · intro hr1 hr2
      have hn1 : ¬(retargetRatio chain s < 1/2) := by linarith
      have hn2 : ¬(retargetRatio chain s > 2) := by linarith
      rw [if_neg hn1, if_neg hn2]
  · intro hlo hhi
    rcases hl : chain.getLast? with _ | latest
    · rw [adjust_difficulty_none chain s hl]
      exact ⟨hlo, hhi⟩
    · rw [adjust_difficulty_some chain s latest hl]
      unfold adjustWith
      split_ifs <;> dsimp only <;> omega

/-- C3 witness: a two-block window mined ten times faster than the target
raises the difficulty from 4 to 5. -/
theorem retarget_law_witness :
    adjust_difficulty [cA, cB] sRet =
      (.increased, { sRet with difficulty := 5 }) := by
  have h := ((retarget_law [cA, cB] sRet).2.1) cB (by decide) (by decide)
    (by decide) (by decide)
    (by norm_num [expectedTime, sRet])
  refine h.1 ?_
  have hr : retargetRatio [cA, cB] sRet = 1/10 := by
    simp [retargetRatio, windowTimeTaken, lastWindow, expectedTime, cA, cB, sRet]
  rw [hr]
  norm_num

/-- What a successful non-genesis append produces: the chain extended by
exactly the mined block, whose payload is the requested data and whose hash
meets the proof-of-work target. -/
theorem add_block_spec (ctx : HashCtx) (fuel : Nat) (now : ℚ) (data : BlockData)
    (chain : List Block) (d : Nat) (b : Block) (c' : List Block)
    (hne : chain ≠ [])
    (h : add_block ctx fuel now data chain d = some (b, c')) :
    c' = chain ++ [b] ∧ b.data = data ∧ strTake b.hash d = zeros d := by
  obtain ⟨latest, hl⟩ := Option.isSome_iff_exists.mp (List.getLast?_isSome.mpr hne)
  unfold add_block at h
  split at h
  next heq => rw [hl] at heq; cases heq
  next latest' heq =>
    split at h
    next hm => exact Option.noConfusion h
    next m hm =>
      simp only [Option.some.injEq, Prod.mk.injEq] at h
      obtain ⟨rfl, rfl⟩ := h
      obtain ⟨-, -, hdata, -, -⟩ := mine_block_fields ctx d fuel _ _ hm
      exact ⟨rfl, by rw [hdata]; rfl, mine_block_meets ctx d fuel _ _ hm⟩

/-- C4 (amended): with no pending transaction the settlement round is a
no-op returning the empty result; on a chain that already has a block, a
successful round appends exactly one mined block whose payload is the
snapshot of all pending transactions, flips exactly the pending
transactions to settled referencing the new block's index, and appends
exactly one new pending reward transaction from SYSTEM to the miner for
the fixed reward. -/
theorem settlement_round (ctx : HashCtx) (fuel : Nat) (now : ℚ) (miner : String)
    (auto : Bool) (st : LedgerState) :
    (st.txs.filter (fun t => t.pending) = [] →
      mine_pending_transactions ctx fuel now miner auto st = some (none, none, st)) ∧
    (st.chain ≠ [] →
      ∀ res, mine_pending_transactions ctx fuel now miner auto st = some res →
        st.txs.filter (fun t => t.pending) ≠ [] →
        ∃ nb, res.1 = some nb ∧
          res.2.2.chain = st.chain ++ [nb] ∧
          nb.data = BlockData.txList
            ((st.txs.filter (fun t => t.pending)).map Tx.to_dict) ∧
          strTake nb.hash st.diff.difficulty.toNat = zeros st.diff.difficulty.toNat ∧
          res.2.2.txs = st.txs.map (settleTx nb.index) ++
            [{ sender := "SYSTEM", receiver := miner, amount := MINING_REWARD,
               timestamp := now, block := none, pending := true }]) := by
  constructor
  · intro h
    simp [mine_pending_transactions, h]
  · intro hch res hres hp
    simp only [mine_pending_transactions] at hres
    rw [if_neg hp] at hres
    split at hres
    next hm => exact Option.noConfusion hres
    next nb chain' hm =>
      obtain ⟨hc', hdata, hpow⟩ :=
        add_block_spec ctx fuel now _ st.chain st.diff.difficulty.toNat nb chain' hch hm
      cases auto
      · rw [if_neg (by simp)] at hres
        injection hres with h
        subst h
        exact ⟨nb, rfl, hc', hdata, hpow, rfl⟩
      · rw [if_pos rfl] at hres
        injection hres with h
        subst h
        exact ⟨nb, rfl, hc', hdata, hpow, rfl⟩

/-- C4 counterexample: with a pending transaction but an empty chain, the
settlement round settles the transaction into a freshly created genesis
block whose payload is the genesis marker, not the pending snapshot. -/
theorem settlement_round_counterexample :
    stEmptyChain.txs.filter (fun t => t.pending) ≠ [] ∧
    (mine_pending_transactions ctxH 0 7 "Miner1" false stEmptyChain).map
      (fun r => r.1.map Block.data) = some (some BlockData.genesis) := by
  constructor
  · decide
  · decide

/-- C4 witness: a settlement round over a one-block chain with one pending
transaction appends exactly the expected block. -/
theorem settlement_round_witness :
    resW.2.2.chain = stW.chain ++ [nbW] := by
  obtain ⟨nb, h1, h2, -, -, -⟩ :=
    (settlement_round ctx0s 0 7 "Miner1" false stW).2 (by decide) resW
      (by decide) (by decide)
  have hb : nbW = nb := Option.some.inj h1
  subst hb
  exact h2
